import Mathlib

/-!
Shallow embedding of the Orlik-Solomon algebra engine
(`src/sage/algebras/orlik_solomon.py`).

Ground-set elements are modelled as natural numbers.  The ordering index
(the `_sorting` dictionary) is a function `rank : ℕ → ℕ`; the broken-circuit
dictionary (`_broken_circuits`) is an association list whose order models the
Python dict's insertion-order iteration.  Algebra elements (values of the
`CombinatorialFreeModule`) are modelled as coefficient functions
`Finset ℕ → ℤ` on basis indices.

The recursion of `subset_image` is not structural, so it is embedded with an
explicit fuel parameter; `subset_image` itself runs the recursion with fuel
`osMeasure T.rank S + 1`, and the development proves (for tables satisfying the
broken-circuit invariant `ValidTable`) that this fuel is sufficient, i.e. the
fuelled function is stable from that point on, which is the termination
argument of the source.
-/

/-- Coefficient function of an element of the free module on basis indices:
the model of a value of `CombinatorialFreeModule` (spec: an algebra element is
a mapping from NBC set to ring coefficient). -/
abbrev OSElt : Type := Finset ℕ → ℤ

/-- The single basis element indexed by `m` with coefficient 1
(`self.monomial(S)` / `self.basis()[b]` in the source). -/
def monomial (m : Finset ℕ) : OSElt := fun T => if T = m then 1 else 0

/-- Total order used for `sorted(S, key=lambda x: self._sorting[x])`:
compare ranks, break ties (which cannot occur for an injective rank) by the
element itself so that the comparison is antisymmetric. -/
abbrev keyLe (rank : ℕ → ℕ) (a b : ℕ) : Prop :=
  rank a < rank b ∨ (rank a = rank b ∧ a ≤ b)

instance keyLeIsTotal (rank : ℕ → ℕ) : IsTotal ℕ (keyLe rank) :=
  ⟨fun a b => by unfold keyLe; omega⟩

instance keyLeIsTrans (rank : ℕ → ℕ) : IsTrans ℕ (keyLe rank) :=
  ⟨fun a b c hab hbc => by unfold keyLe at *; omega⟩

instance keyLeIsAntisymm (rank : ℕ → ℕ) : IsAntisymm ℕ (keyLe rank) :=
  ⟨fun a b hab hba => by unfold keyLe at *; omega⟩

/-- `sorted(S, key=lambda x: self._sorting[x])`: the elements of the finite
set `S` listed in ascending rank order. -/
def sortByRank (rank : ℕ → ℕ) (S : Finset ℕ) : List ℕ :=
  Quot.liftOn S.val (fun l => List.insertionSort (keyLe rank) l)
    (fun l₁ l₂ h =>
      List.eq_of_perm_of_sorted
        (((l₁.perm_insertionSort (keyLe rank)).trans h).trans
          (l₂.perm_insertionSort (keyLe rank)).symm)
        (l₁.sorted_insertionSort (keyLe rank))
        (l₂.sorted_insertionSort (keyLe rank)))

/-- The state built by `OrlikSolomonAlgebra.__init__`: the ordering index
`rank` (`self._sorting`) and the broken-circuit dictionary
(`self._broken_circuits`), as an association list in dict iteration order. -/
structure BCTable where
  rank : ℕ → ℕ
  entries : List (Finset ℕ × ℕ)

/-- Invariant of the broken-circuit table established by `__init__`:
the removed element recorded for a broken circuit has strictly smaller rank
than every element of the broken circuit. -/
def ValidTable (T : BCTable) : Prop :=
  ∀ p ∈ T.entries, ∀ x ∈ p.1, T.rank p.2 < T.rank x

instance (T : BCTable) : Decidable (ValidTable T) :=
  inferInstanceAs
    (Decidable (∀ p ∈ T.entries, ∀ x ∈ p.1, T.rank p.2 < T.rank x))

/-- Termination measure for `subset_image`: the sum of `2 ^ rank x` over `S`.
For an injective rank this is the binary encoding of the set of ranks of `S`,
and it orders subsets exactly like the descending-rank lexicographic order of
the source's termination argument. -/
def osMeasure (rank : ℕ → ℕ) (S : Finset ℕ) : ℕ := ∑ x ∈ S, 2 ^ rank x

/-- The scan `for bc in self._broken_circuits: if bc.issubset(S): ...`:
the first recorded (broken circuit, removed element) pair whose key is a
subset of `S`, if any. -/
def scanBC (T : BCTable) (S : Finset ℕ) : Option (Finset ℕ × ℕ) :=
  T.entries.find? (fun p => decide (p.1 ⊆ S))

/-- The accumulation loop of `subset_image`'s rewrite branch:
`for j in Ss: if j in bc: r += coeff * rec(S.symmetric_difference({i,j})); coeff *= -1`.
The recursive call is abstracted as `f`. -/
def bcLoop (f : Finset ℕ → OSElt) (S : Finset ℕ) (i : ℕ) (bc : Finset ℕ) :
    List ℕ → ℤ → OSElt
  | [], _ => 0
  | j :: rest, coeff =>
      (if j ∈ bc then coeff • f (symmDiff S {i, j}) else 0) +
        bcLoop f S i bc rest (-coeff)

/-- Fuelled version of `subset_image`: one unit of fuel is consumed per
rewrite layer; with fuel `0` the result is the (never reached) junk value `0`. -/
def subsetImageF (T : BCTable) : ℕ → Finset ℕ → OSElt
  | 0, _ => 0
  | fuel + 1, S =>
      match scanBC T S with
      | none => monomial S
      | some p =>
          if p.2 ∈ S then 0
          else bcLoop (subsetImageF T fuel) S p.2 p.1 (sortByRank T.rank S) 1

/-- `OrlikSolomonAlgebra.subset_image(S)`: reduce the wedge product indexed by
the subset `S` to a linear combination of NBC basis elements.  The fuel
`osMeasure T.rank S + 1` is sufficient for every valid table. -/
def subset_image (T : BCTable) (S : Finset ℕ) : OSElt :=
  subsetImageF T (osMeasure T.rank S + 1) S

/-- Python-dict insertion `d[k] = v`: overwrite the value in place if the key
is present (keeping the key's original position), else append the pair. -/
def dictInsert (t : List (Finset ℕ × ℕ)) (k : Finset ℕ) (v : ℕ) :
    List (Finset ℕ × ℕ) :=
  if t.any (fun p => decide (p.1 = k)) then
    t.map (fun p => if p.1 = k then (k, v) else p)
  else t ++ [(k, v)]

/-- The broken-circuit dictionary built by `__init__`:
`for c in circuits: L = sorted(c, key=rank); d[frozenset(L[1:])] = L[0]`. -/
def buildEntries (rank : ℕ → ℕ) (cs : List (Finset ℕ)) :
    List (Finset ℕ × ℕ) :=
  cs.foldl
    (fun t c =>
      dictInsert t (sortByRank rank c).tail.toFinset (sortByRank rank c).headI)
    []

/-- The table state of an algebra constructed from a rank function and a list
of circuits. -/
def buildTable (rank : ℕ → ℕ) (cs : List (Finset ℕ)) : BCTable :=
  ⟨rank, buildEntries rank cs⟩

/-- The external free module's bilinear product (`x * y` on elements), with
basis indices drawn from the powerset of the ground set `Gs` and basis-level
product `f`. -/
def mulOS (Gs : Finset ℕ) (f : Finset ℕ → Finset ℕ → OSElt) (x y : OSElt) :
    OSElt :=
  ∑ a ∈ Gs.powerset, ∑ b ∈ Gs.powerset, (x a * y b) • f a b

/-- Fuelled version of `product_on_basis`; fuel is consumed only when the
`len(a) > 1` branch hands `product_on_basis` itself back to the free module
product `G[i] * r`. -/
def pobF (T : BCTable) (Gs : Finset ℕ) : ℕ → Finset ℕ → Finset ℕ → OSElt
  | 0, _, _ => 0
  | fuel + 1, a, b =>
      if a = ∅ then monomial b
      else if b = ∅ then monomial a
      else if ¬Disjoint a b then 0
      else if a.card = 1 then
        ((-1 : ℤ) ^
            ((sortByRank T.rank (insert (sortByRank T.rank a).headI b)).indexOf
              (sortByRank T.rank a).headI)) •
          subset_image T (insert (sortByRank T.rank a).headI b)
      else
        (sortByRank T.rank a).foldl
          (fun r i => mulOS Gs (pobF T Gs fuel) (subset_image T {i}) r)
          ((if a.card % 4 < 2 then (1 : ℤ) else -1) • monomial b)

/-- `OrlikSolomonAlgebra.product_on_basis(a, b)`.  Fuel `2` is sufficient:
the recursive occurrence inside the free-module product is only ever applied
to basis indices in the support of a generator `G[i] = subset_image({i})`,
which are singletons, and on singletons no further fuel is consumed. -/
def product_on_basis (T : BCTable) (Gs : Finset ℕ) (a b : Finset ℕ) : OSElt :=
  pobF T Gs 2 a b

/-- The elements of `S` listed in descending rank order and mapped to their
ranks: the word on which the source's termination argument compares subsets
lexicographically. -/
def descRankList (rank : ℕ → ℕ) (S : Finset ℕ) : List ℕ :=
  ((sortByRank rank S).reverse).map rank

/-- Python `str` of a list of naturals, e.g. `"[0, 2, 3]"`. -/
def pyStrList (l : List ℕ) : String :=
  "[" ++ String.intercalate (", ") (l.map toString) ++ "]"

/-- Python slicing `s[1:-1]`: drop the first and the last character. -/
def pyStrip (s : String) : String := String.mk ((s.data.drop 1).dropLast)

/-- `OrlikSolomonAlgebra._repr_term(m)`, i.e.
`"OS{{{}}}".format(str(list(m))[1:-1])`.  Python's `list(m)` enumerates the
frozenset in its unspecified hash-table iteration order, so the enumeration
`enum` of the basis index is an explicit parameter of the model. -/
def repr_term (enum : List ℕ) : String :=
  "OS\x7b" ++ pyStrip (pyStrList enum) ++ "\x7d"

/-- Modelled from the spec: "textual rendering of a basis index as its sorted
element list" — the claimed rendering with the elements in ascending order. -/
def reprTermSpec (m : Finset ℕ) : String :=
  "OS\x7b" ++
    String.intercalate (", ") ((sortByRank (fun x => x) m).map toString) ++
    "\x7d"

/-- The comprehension `self._sorting = {x:i for i,x in enumerate(ordering)}`:
later occurrences of a duplicated element overwrite earlier ones; an element
that does not occur in `ordering` is absent (`none`, a `KeyError` on lookup). -/
def sortingMap (ordering : List ℕ) : ℕ → Option ℕ :=
  ordering.enum.foldl (fun m p => fun x => if x = p.2 then some p.1 else m x)
    (fun _ => none)

/-- The observable construction behaviour of `__init__` for an explicit
ordering: the broken-circuit loop sorts each circuit with
`key=lambda x: self._sorting[x]`, which raises `KeyError` exactly when some
circuit element is missing from `_sorting`; no other validation happens. -/
def osInit (ordering : List ℕ) (cs : List (Finset ℕ)) :
    Except String (List (Finset ℕ × ℕ)) :=
  if ∀ c ∈ cs, ∀ x ∈ c, (sortingMap ordering x).isSome then
    Except.ok (buildEntries (fun x => (sortingMap ordering x).getD 0) cs)
  else Except.error ("KeyError")

/-! ### Lemmas about `sortByRank` -/

theorem sortByRank_coe (rank : ℕ → ℕ) (S : Finset ℕ) :
    (sortByRank rank S : Multiset ℕ) = S.val := by
  rcases S with ⟨m, h⟩
  induction m using Quot.ind with
  | _ l => exact Quot.sound (l.perm_insertionSort (keyLe rank))

theorem mem_sortByRank {rank : ℕ → ℕ} {S : Finset ℕ} {x : ℕ} :
    x ∈ sortByRank rank S ↔ x ∈ S := by
  rw [← Multiset.mem_coe, sortByRank_coe]
  exact Iff.rfl

theorem nodup_sortByRank (rank : ℕ → ℕ) (S : Finset ℕ) :
    (sortByRank rank S).Nodup := by
  have h := S.nodup
  rw [← sortByRank_coe rank S] at h
  exact h

theorem sorted_sortByRank (rank : ℕ → ℕ) (S : Finset ℕ) :
    List.Sorted (keyLe rank) (sortByRank rank S) := by
  rcases S with ⟨m, h⟩
  induction m using Quot.ind with
  | _ l => exact l.sorted_insertionSort (keyLe rank)

theorem length_sortByRank (rank : ℕ → ℕ) (S : Finset ℕ) :
    (sortByRank rank S).length = S.card := by
  rw [Finset.card_def, ← sortByRank_coe rank S, Multiset.coe_card]

theorem sortByRank_empty (rank : ℕ → ℕ) : sortByRank rank ∅ = [] := rfl

theorem sortByRank_singleton (rank : ℕ → ℕ) (x : ℕ) :
    sortByRank rank {x} = [x] := rfl

theorem pairwise_conj {α : Type} {R Q : α → α → Prop} :
    ∀ {l : List α}, l.Pairwise R → l.Pairwise Q →
      l.Pairwise fun a b => R a b ∧ Q a b := by
  intro l
  induction l with
  | nil => intro _ _; exact List.Pairwise.nil
  | cons a t ih =>
      intro hR hQ
      rcases List.pairwise_cons.mp hR with ⟨hRa, hRt⟩
      rcases List.pairwise_cons.mp hQ with ⟨hQa, hQt⟩
      exact List.pairwise_cons.mpr
        ⟨fun b hb => ⟨hRa b hb, hQa b hb⟩, ih hRt hQt⟩

/-- Pairwise strict rank increase along `sortByRank`, for an injective rank. -/
theorem pairwise_lt_sortByRank {rank : ℕ → ℕ} (hinj : Function.Injective rank)
    (S : Finset ℕ) :
    (sortByRank rank S).Pairwise (fun a b => rank a < rank b) := by
  have hs : (sortByRank rank S).Pairwise (keyLe rank) := sorted_sortByRank rank S
  have hn : (sortByRank rank S).Pairwise (· ≠ ·) := nodup_sortByRank rank S
  refine (pairwise_conj hn hs).imp ?_
  rintro a b ⟨hne, hk⟩
  rcases hk with h | ⟨he, _⟩
  · exact h
  · exact absurd (hinj he) hne

/-! ### The rewrite step: symmetric difference and the termination measure -/

theorem symmDiff_pair {S : Finset ℕ} {i j : ℕ} (hi : i ∉ S) (hj : j ∈ S) :
    symmDiff S {i, j} = insert i (S.erase j) := by
  have hij : i ≠ j := fun h => hi (h ▸ hj)
  ext x
  simp only [Finset.mem_symmDiff, Finset.mem_insert, Finset.mem_erase,
    Finset.mem_singleton]
  constructor
  · rintro (⟨hxS, hx⟩ | ⟨hx, hxS⟩)
    · exact Or.inr ⟨fun h => hx (Or.inr h), hxS⟩
    · rcases hx with rfl | rfl
      · exact Or.inl rfl
      · exact absurd hj hxS
  · rintro (rfl | ⟨hxj, hxS⟩)
    · exact Or.inr ⟨Or.inl rfl, hi⟩
    · exact Or.inl ⟨hxS, fun h => by
        rcases h with rfl | rfl
        · exact hi hxS
        · exact hxj rfl⟩

theorem osMeasure_symmDiff_lt {rank : ℕ → ℕ} {S : Finset ℕ} {i j : ℕ}
    (hi : i ∉ S) (hj : j ∈ S) (hr : rank i < rank j) :
    osMeasure rank (symmDiff S {i, j}) < osMeasure rank S := by
  rw [symmDiff_pair hi hj]
  unfold osMeasure
  have hie : i ∉ S.erase j := fun h => hi (Finset.mem_of_mem_erase h)
  rw [Finset.sum_insert hie]
  have herase : (∑ x ∈ S.erase j, 2 ^ rank x) + 2 ^ rank j
      = ∑ x ∈ S, 2 ^ rank x := Finset.sum_erase_add S _ hj
  have hpow : 2 ^ rank i < 2 ^ rank j :=
    Nat.pow_lt_pow_right (by omega) hr
  omega

theorem card_symmDiff_pair {S : Finset ℕ} {i j : ℕ} (hi : i ∉ S) (hj : j ∈ S) :
    (symmDiff S {i, j}).card = S.card := by
  rw [symmDiff_pair hi hj]
  have hie : i ∉ S.erase j := fun h => hi (Finset.mem_of_mem_erase h)
  rw [Finset.card_insert_of_not_mem hie, Finset.card_erase_of_mem hj]
  have : 0 < S.card := Finset.card_pos.mpr ⟨j, hj⟩
  omega

/-! ### Lemmas about the table scan -/

theorem scanBC_mem {T : BCTable} {S : Finset ℕ} {p : Finset ℕ × ℕ}
    (h : scanBC T S = some p) : p ∈ T.entries :=
  List.mem_of_find?_eq_some h

theorem scanBC_subset {T : BCTable} {S : Finset ℕ} {p : Finset ℕ × ℕ}
    (h : scanBC T S = some p) : p.1 ⊆ S := by
  have := List.find?_some h
  exact of_decide_eq_true this

theorem scanBC_eq_none_iff {T : BCTable} {S : Finset ℕ} :
    scanBC T S = none ↔ ∀ p ∈ T.entries, ¬p.1 ⊆ S := by
  unfold scanBC
  rw [List.find?_eq_none]
  constructor
  · intro h p hp hsub
    exact h p hp (decide_eq_true hsub)
  · intro h p hp hdec
    exact h p hp (of_decide_eq_true hdec)

/-! ### Lemmas about the rewrite loop -/

theorem bcLoop_congr {f g : Finset ℕ → OSElt} {S : Finset ℕ} {i : ℕ}
    {bc : Finset ℕ} :
    ∀ (l : List ℕ) (c : ℤ),
      (∀ j ∈ l, j ∈ bc → f (symmDiff S {i, j}) = g (symmDiff S {i, j})) →
      bcLoop f S i bc l c = bcLoop g S i bc l c := by
  intro l
  induction l with
  | nil => intro c _; rfl
  | cons j rest ih =>
      intro c h
      simp only [bcLoop]
      rw [ih (-c) fun x hx hbc => h x (List.mem_cons_of_mem _ hx) hbc]
      by_cases hj : j ∈ bc
      · rw [if_pos hj, if_pos hj, h j (List.mem_cons_self _ _) hj]
      · rw [if_neg hj, if_neg hj]

theorem bcLoop_eq_zero {f : Finset ℕ → OSElt} {S : Finset ℕ} {i : ℕ}
    {bc : Finset ℕ} :
    ∀ (l : List ℕ) (c : ℤ),
      (∀ j ∈ l, j ∈ bc → f (symmDiff S {i, j}) = 0) →
      bcLoop f S i bc l c = 0 := by
  intro l
  induction l with
  | nil => intro c _; rfl
  | cons j rest ih =>
      intro c h
      simp only [bcLoop]
      rw [ih (-c) fun x hx hbc => h x (List.mem_cons_of_mem _ hx) hbc]
      by_cases hj : j ∈ bc
      · rw [if_pos hj, h j (List.mem_cons_self _ _) hj, smul_zero, add_zero]
      · rw [if_neg hj, add_zero]

theorem bcLoop_apply_ne_zero {f : Finset ℕ → OSElt} {S : Finset ℕ} {i : ℕ}
    {bc : Finset ℕ} {m : Finset ℕ} :
    ∀ (l : List ℕ) (c : ℤ), bcLoop f S i bc l c m ≠ 0 →
      ∃ j ∈ l, j ∈ bc ∧ f (symmDiff S {i, j}) m ≠ 0 := by
  intro l
  induction l with
  | nil => intro c h; exact absurd rfl h
  | cons j rest ih =>
      intro c h
      simp only [bcLoop, Pi.add_apply] at h
      by_cases hj : j ∈ bc
      · rw [if_pos hj] at h
        by_cases hrest : bcLoop f S i bc rest (-c) m = 0
        · rw [hrest, add_zero, Pi.smul_apply] at h
          refine ⟨j, List.mem_cons_self _ _, hj, fun h0 => h ?_⟩
          rw [h0, smul_zero]
        · obtain ⟨x, hx, hxbc, hxne⟩ := ih (-c) hrest
          exact ⟨x, List.mem_cons_of_mem _ hx, hxbc, hxne⟩
      · rw [if_neg hj, Pi.zero_apply, zero_add] at h
        obtain ⟨x, hx, hxbc, hxne⟩ := ih (-c) h
        exact ⟨x, List.mem_cons_of_mem _ hx, hxbc, hxne⟩

/-! ### Fuel stability: the recursion of `subset_image` terminates -/

theorem subsetImageF_succ (T : BCTable) (fuel : ℕ) (S : Finset ℕ) :
    subsetImageF T (fuel + 1) S =
      match scanBC T S with
      | none => monomial S
      | some p =>
          if p.2 ∈ S then 0
          else bcLoop (subsetImageF T fuel) S p.2 p.1 (sortByRank T.rank S) 1 :=
  rfl

theorem subsetImageF_stable {T : BCTable} (hT : ValidTable T) :
    ∀ (n : ℕ) (S : Finset ℕ), osMeasure T.rank S < n →
      subsetImageF T n S = subset_image T S := by
  intro n
  induction n using Nat.strong_induction_on with
  | _ n IH =>
    intro S hS
    obtain ⟨m, rfl⟩ : ∃ m, n = m + 1 := ⟨n - 1, by omega⟩
    unfold subset_image
    rw [subsetImageF_succ, subsetImageF_succ]
    cases h : scanBC T S with
    | none => rfl
    | some p =>
        by_cases hp2 : p.2 ∈ S
        · simp only [if_pos hp2]
        · simp only [if_neg hp2]
          refine bcLoop_congr _ _ fun j hjl hjbc => ?_
          have hjS : j ∈ S := mem_sortByRank.mp hjl
          have hrk : T.rank p.2 < T.rank j :=
            hT p (scanBC_mem h) j hjbc
          have hlt : osMeasure T.rank (symmDiff S {p.2, j}) <
              osMeasure T.rank S := osMeasure_symmDiff_lt hp2 hjS hrk
          rw [IH m (by omega) _ (by omega),
            IH (osMeasure T.rank S) (by omega) _ hlt]

/-- Branch unfolding of `subset_image`: no broken circuit is contained in `S`
(the implicit `else` of the scan loop), so `S` is an NBC set. -/
theorem subset_image_of_scan_none {T : BCTable} {S : Finset ℕ}
    (h : scanBC T S = none) : subset_image T S = monomial S := by
  unfold subset_image
  rw [subsetImageF_succ, h]

/-- Branch unfolding of `subset_image`: the scan found a broken circuit whose
removed element also lies in `S`. -/
theorem subset_image_of_mem {T : BCTable} {S : Finset ℕ} {p : Finset ℕ × ℕ}
    (h : scanBC T S = some p) (hp2 : p.2 ∈ S) : subset_image T S = 0 := by
  unfold subset_image
  rw [subsetImageF_succ, h]
  simp only [if_pos hp2]

/-- Branch unfolding of `subset_image`: the rewrite branch, expressed with
`subset_image` itself in the recursive position (valid tables only). -/
theorem subset_image_rewrite {T : BCTable} (hT : ValidTable T) {S : Finset ℕ}
    {p : Finset ℕ × ℕ} (h : scanBC T S = some p) (hp2 : p.2 ∉ S) :
    subset_image T S =
      bcLoop (subset_image T) S p.2 p.1 (sortByRank T.rank S) 1 := by
  unfold subset_image
  rw [subsetImageF_succ, h]
  simp only [if_neg hp2]
  refine bcLoop_congr _ _ fun j hjl hjbc => ?_
  have hjS : j ∈ S := mem_sortByRank.mp hjl
  have hrk : T.rank p.2 < T.rank j := hT p (scanBC_mem h) j hjbc
  exact subsetImageF_stable hT _ _ (osMeasure_symmDiff_lt hp2 hjS hrk)

/-! ### Claim C1 -/

/-- C1 (amended): for every subset `S` such that no broken-circuit key of the
table is a subset of `S` (i.e. `S` is an NBC set), `subset_image` returns the
single basis element indexed by `S` with coefficient 1.  The original claim's
extra disjunct "`S` is empty" fails when the table has an empty key (see
`c1_counterexample`). -/
theorem c1_nbc_monomial {T : BCTable} {S : Finset ℕ}
    (h : ∀ p ∈ T.entries, ¬p.1 ⊆ S) : subset_image T S = monomial S :=
  subset_image_of_scan_none (scanBC_eq_none_iff.mpr h)

theorem c1_nbc_monomial_witness :
    subset_image (buildTable (fun x => x) [{0, 1, 2}]) {0, 1} =
      monomial {0, 1} :=
  c1_nbc_monomial (by decide)

/-- C1 is false as stated: for the table of the single circuit `{0}` (a loop,
whose broken circuit is the empty set), the empty set satisfies the premise
"`S` is empty", yet `subset_image(∅)` is the zero element, not the basis
element indexed by `∅`. -/
theorem c1_counterexample :
    ((∅ : Finset ℕ) = ∅ ∨
        ∀ p ∈ (buildTable (fun x => x) [{0}]).entries, ¬p.1 ⊆ (∅ : Finset ℕ)) ∧
      subset_image (buildTable (fun x => x) [{0}]) ∅ ≠ monomial ∅ :=
  ⟨Or.inl rfl, fun h => absurd (congrFun h ∅) (by decide)⟩

/-! ### Claim C2 -/

theorem bcLoop_eq_sum {f : Finset ℕ → OSElt} {S : Finset ℕ} {i : ℕ}
    {bc : Finset ℕ} :
    ∀ (l : List ℕ) (c : ℤ),
      bcLoop f S i bc l c =
        ∑ k ∈ Finset.range l.length,
          if l.getD k 0 ∈ bc then
            (c * (-1) ^ k) • f (symmDiff S {i, l.getD k 0})
          else 0 := by
  intro l
  induction l with
  | nil => intro c; rfl
  | cons j rest ih =>
      intro c
      rw [List.length_cons, Finset.sum_range_succ']
      simp only [List.getD_cons_succ, List.getD_cons_zero]
      rw [bcLoop, ih (-c), add_comm]
      congr 1
      · refine Finset.sum_congr rfl fun k _ => ?_
        have hc : c * (-1 : ℤ) ^ (k + 1) = -c * (-1) ^ k := by ring
        rw [hc]
      · simp only [pow_zero, mul_one]

/-- C2: in the rewrite branch (the scan found the broken circuit `p.1` with
removed element `p.2 ∉ S`), `subset_image S` is the sum over the 0-based
positions `k` of the ascending-rank sorting of `S` whose entry `s_k` lies in
the broken circuit, of `(-1) ^ k • subset_image (S ∆ {i, s_k})` (the source's
1-based `(-1) ^ (k-1)` with the accumulator sign negated after every element). -/
theorem c2_rewrite_sum {T : BCTable} (hT : ValidTable T) {S : Finset ℕ}
    {p : Finset ℕ × ℕ} (hscan : scanBC T S = some p) (hp2 : p.2 ∉ S) :
    subset_image T S =
      ∑ k ∈ Finset.range (sortByRank T.rank S).length,
        if (sortByRank T.rank S).getD k 0 ∈ p.1 then
          ((-1 : ℤ) ^ k) •
            subset_image T (symmDiff S {p.2, (sortByRank T.rank S).getD k 0})
        else 0 := by
  rw [subset_image_rewrite hT hscan hp2, bcLoop_eq_sum]
  refine Finset.sum_congr rfl fun k _ => ?_
  simp only [one_mul]

theorem c2_rewrite_sum_witness :
    subset_image (buildTable (fun x => x) [{0, 1, 2}]) {1, 2} =
      ∑ k ∈ Finset.range
          (sortByRank (buildTable (fun x => x) [{0, 1, 2}]).rank {1, 2}).length,
        if (sortByRank (buildTable (fun x => x) [{0, 1, 2}]).rank {1, 2}).getD
              k 0 ∈ ({1, 2} : Finset ℕ) then
          ((-1 : ℤ) ^ k) •
            subset_image (buildTable (fun x => x) [{0, 1, 2}])
              (symmDiff {1, 2}
                {0,
                  (sortByRank (buildTable (fun x => x) [{0, 1, 2}]).rank
                      {1, 2}).getD k 0})
        else 0 :=
  c2_rewrite_sum (p := ({1, 2}, 0)) (by decide) (by decide) (by decide)

/-! ### Claim C10 -/

/-- Degree preservation of the reducer (used both for claim C10 and to show
that a generator `subset_image {i}` is supported on singleton indices). -/
theorem subset_image_card {T : BCTable} (hT : ValidTable T)
    {S m : Finset ℕ} (h : subset_image T S m ≠ 0) : m.card = S.card := by
  have key : ∀ (n : ℕ) (S m : Finset ℕ), osMeasure T.rank S ≤ n →
      subset_image T S m ≠ 0 → m.card = S.card := by
    intro n
    induction n using Nat.strong_induction_on with
    | _ n IH =>
      intro S m hn h
      cases hscan : scanBC T S with
      | none =>
          rw [subset_image_of_scan_none hscan] at h
          unfold monomial at h
          by_cases hm : m = S
          · rw [hm]
          · rw [if_neg hm] at h
            exact absurd rfl h
      | some p =>
          by_cases hp2 : p.2 ∈ S
          · rw [subset_image_of_mem hscan hp2] at h
            exact absurd rfl h
          · rw [subset_image_rewrite hT hscan hp2] at h
            obtain ⟨j, hjl, hjbc, hne⟩ := bcLoop_apply_ne_zero _ _ h
            have hjS : j ∈ S := mem_sortByRank.mp hjl
            have hrk : T.rank p.2 < T.rank j := hT p (scanBC_mem hscan) j hjbc
            have hlt := osMeasure_symmDiff_lt hp2 hjS hrk
            have hcard := card_symmDiff_pair hp2 hjS
            have hm := IH (osMeasure T.rank (symmDiff S {p.2, j})) (by omega)
              _ m le_rfl hne
            omega
  exact key (osMeasure T.rank S) S m le_rfl h

/-- C10: every basis index occurring with nonzero coefficient in
`subset_image S` has the cardinality of `S` (each rewrite step swaps one
element of `S` for one element outside of `S`). -/
theorem c10_degree_preservation {T : BCTable} (hT : ValidTable T)
    {S m : Finset ℕ} (h : subset_image T S m ≠ 0) : m.card = S.card :=
  subset_image_card hT h

theorem c10_degree_preservation_witness :
    Finset.card ({0, 2} : Finset ℕ) = Finset.card ({1, 2} : Finset ℕ) :=
  c10_degree_preservation (T := buildTable (fun x => x) [{0, 1, 2}])
    (by decide) (S := {1, 2}) (m := {0, 2}) (by decide)

/-! ### Claim C3: the termination order -/

theorem sum_two_pow_lt :
    ∀ (l : List ℕ) (a : ℕ), l.Pairwise (fun x y => y < x) →
      (∀ x ∈ l, x < a) → (l.map (2 ^ ·)).sum < 2 ^ a := by
  intro l
  induction l with
  | nil => intro a _ _; exact Nat.two_pow_pos a
  | cons x t ih =>
      intro a hp hb
      have hx : x < a := hb x (List.mem_cons_self _ _)
      have ht : (t.map (2 ^ ·)).sum < 2 ^ x :=
        ih x hp.of_cons fun y hy => List.rel_of_pairwise_cons hp hy
      have hle : 2 ^ (x + 1) ≤ 2 ^ a := Nat.pow_le_pow_right (by omega) (by omega)
      have hsucc : 2 ^ (x + 1) = 2 ^ x + 2 ^ x := by
        rw [pow_succ]; omega
      simp only [List.map_cons, List.sum_cons]
      omega

/-- On strictly descending lists of naturals, the lexicographic order agrees
with the order of the encoded binary values `Σ 2 ^ digit`. -/
theorem lex_sum_lt {l1 l2 : List ℕ} (h : List.Lex (· < ·) l1 l2)
    (h1 : l1.Pairwise (fun x y => y < x))
    (h2 : l2.Pairwise (fun x y => y < x)) :
    (l1.map (2 ^ ·)).sum < (l2.map (2 ^ ·)).sum := by
  induction h with
  | nil =>
      simp only [List.map_nil, List.sum_nil, List.map_cons, List.sum_cons]
      exact Nat.lt_of_lt_of_le (Nat.two_pow_pos _) (Nat.le_add_right _ _)
  | @cons a t1 t2 _ ih =>
      simp only [List.map_cons, List.sum_cons]
      exact Nat.add_lt_add_left (ih h1.of_cons h2.of_cons) _
  | @rel a t1 b t2 hab =>
      simp only [List.map_cons, List.sum_cons]
      have hs : (t1.map (2 ^ ·)).sum < 2 ^ a :=
        sum_two_pow_lt t1 a h1.of_cons fun y hy =>
          List.rel_of_pairwise_cons h1 hy
      have hle : 2 ^ (a + 1) ≤ 2 ^ b := Nat.pow_le_pow_right (by omega) (by omega)
      have hsucc : 2 ^ (a + 1) = 2 ^ a + 2 ^ a := by
        rw [pow_succ]; omega
      omega

theorem pairwise_gt_descRankList {rank : ℕ → ℕ}
    (hinj : Function.Injective rank) (S : Finset ℕ) :
    (descRankList rank S).Pairwise (fun x y => y < x) := by
  unfold descRankList
  rw [List.pairwise_map, List.pairwise_reverse]
  exact pairwise_lt_sortByRank hinj S

theorem sum_descRankList (rank : ℕ → ℕ) (S : Finset ℕ) :
    ((descRankList rank S).map (2 ^ ·)).sum = osMeasure rank S := by
  unfold descRankList
  rw [List.map_map, List.map_reverse, List.sum_reverse]
  unfold osMeasure
  rw [Finset.sum_eq_multiset_sum, ← sortByRank_coe rank S, Multiset.map_coe,
    Multiset.sum_coe]
  rfl

/-- The descending-rank lexicographic order on subsets is, for an injective
rank, exactly the order of the measures `osMeasure`. -/
theorem descLex_iff_osMeasure_lt {rank : ℕ → ℕ}
    (hinj : Function.Injective rank) (A B : Finset ℕ) :
    List.Lex (· < ·) (descRankList rank A) (descRankList rank B) ↔
      osMeasure rank A < osMeasure rank B := by
  constructor
  · intro h
    have := lex_sum_lt h (pairwise_gt_descRankList hinj A)
      (pairwise_gt_descRankList hinj B)
    rwa [sum_descRankList, sum_descRankList] at this
  · intro h
    have htri : List.Lex (· < ·) (descRankList rank A) (descRankList rank B) ∨
        descRankList rank A = descRankList rank B ∨
        List.Lex (· < ·) (descRankList rank B) (descRankList rank A) :=
      trichotomous_of (List.Lex (· < ·)) _ _
    rcases htri with hl | he | hr
    · exact hl
    · exfalso
      have hAB : ((descRankList rank A).map (2 ^ ·)).sum =
          ((descRankList rank B).map (2 ^ ·)).sum := by rw [he]
      rw [sum_descRankList, sum_descRankList] at hAB
      omega
    · exfalso
      have := lex_sum_lt hr (pairwise_gt_descRankList hinj B)
        (pairwise_gt_descRankList hinj A)
      rw [sum_descRankList, sum_descRankList] at this
      omega

/-- C3: in the rewrite branch, (i) the recorded removed element has strictly
smaller rank than every element of the found broken circuit; (ii) each
recursive argument `S ∆ {i, s_k}` is strictly smaller than `S` in the
lexicographic order on descending-rank listings; (iii) that order is
well-founded; and (iv) the recursion therefore terminates: any fuel beyond
`osMeasure` computes the stable value `subset_image`. -/
theorem c3_termination {T : BCTable} (hT : ValidTable T)
    (hinj : Function.Injective T.rank) {S : Finset ℕ} {p : Finset ℕ × ℕ}
    (hscan : scanBC T S = some p) (hp2 : p.2 ∉ S) {j : ℕ} (hj : j ∈ p.1) :
    (∀ x ∈ p.1, T.rank p.2 < T.rank x) ∧
      List.Lex (· < ·) (descRankList T.rank (symmDiff S {p.2, j}))
        (descRankList T.rank S) ∧
      WellFounded (fun A B : Finset ℕ =>
        List.Lex (· < ·) (descRankList T.rank A) (descRankList T.rank B)) ∧
      ∀ fuel, osMeasure T.rank S < fuel →
        subsetImageF T fuel S = subset_image T S := by
  have hmin : ∀ x ∈ p.1, T.rank p.2 < T.rank x := hT p (scanBC_mem hscan)
  have hjS : j ∈ S := scanBC_subset hscan hj
  have hlt : osMeasure T.rank (symmDiff S {p.2, j}) < osMeasure T.rank S :=
    osMeasure_symmDiff_lt hp2 hjS (hmin j hj)
  refine ⟨hmin, (descLex_iff_osMeasure_lt hinj _ _).mpr hlt, ?_, ?_⟩
  · exact Subrelation.wf
      (fun {A B} h => (descLex_iff_osMeasure_lt hinj A B).mp h)
      (InvImage.wf (osMeasure T.rank) Nat.lt_wfRel.wf)
  · exact fun fuel hf => subsetImageF_stable hT fuel S hf

theorem c3_termination_witness :
    (∀ x ∈ ({1, 2} : Finset ℕ),
        (buildTable (fun x => x) [{0, 1, 2}]).rank 0 <
          (buildTable (fun x => x) [{0, 1, 2}]).rank x) ∧
      List.Lex (· < ·)
        (descRankList (buildTable (fun x => x) [{0, 1, 2}]).rank
          (symmDiff {1, 2} {0, 1}))
        (descRankList (buildTable (fun x => x) [{0, 1, 2}]).rank {1, 2}) ∧
      WellFounded (fun A B : Finset ℕ =>
        List.Lex (· < ·)
          (descRankList (buildTable (fun x => x) [{0, 1, 2}]).rank A)
          (descRankList (buildTable (fun x => x) [{0, 1, 2}]).rank B)) ∧
      ∀ fuel,
        osMeasure (buildTable (fun x => x) [{0, 1, 2}]).rank {1, 2} < fuel →
          subsetImageF (buildTable (fun x => x) [{0, 1, 2}]) fuel {1, 2} =
            subset_image (buildTable (fun x => x) [{0, 1, 2}]) {1, 2} :=
  c3_termination (p := ({1, 2}, 0)) (j := 1) (by decide) (fun _ _ h => h)
    (by decide) (by decide) (by decide)

/-! ### Claim C4: the table built from circuits, and dependent sets -/

theorem mem_dictInsert {t : List (Finset ℕ × ℕ)} {k : Finset ℕ} {v : ℕ}
    {q : Finset ℕ × ℕ} (h : q ∈ dictInsert t k v) : q = (k, v) ∨ q ∈ t := by
  unfold dictInsert at h
  split at h
  · obtain ⟨p, hp, hq⟩ := List.mem_map.mp h
    by_cases hpk : p.1 = k
    · rw [if_pos hpk] at hq
      exact Or.inl hq.symm
    · rw [if_neg hpk] at hq
      exact Or.inr (hq ▸ hp)
  · rcases List.mem_append.mp h with hq | hq
    · exact Or.inr hq
    · exact Or.inl (List.mem_singleton.mp hq)

theorem dictInsert_key_self (t : List (Finset ℕ × ℕ)) (k : Finset ℕ) (v : ℕ) :
    ∃ p ∈ dictInsert t k v, p.1 = k := by
  unfold dictInsert
  split
  · next hc =>
      obtain ⟨p, hp, hpk⟩ := List.any_eq_true.mp hc
      refine ⟨(k, v), List.mem_map.mpr ⟨p, hp, ?_⟩, rfl⟩
      rw [if_pos (of_decide_eq_true hpk)]
  · exact ⟨(k, v), List.mem_append.mpr (Or.inr (List.mem_singleton.mpr rfl)),
      rfl⟩

theorem dictInsert_key_mono {t : List (Finset ℕ × ℕ)} {k' : Finset ℕ}
    (h : ∃ p ∈ t, p.1 = k') (k : Finset ℕ) (v : ℕ) :
    ∃ p ∈ dictInsert t k v, p.1 = k' := by
  obtain ⟨p, hp, hpk⟩ := h
  unfold dictInsert
  split
  · by_cases hpkk : p.1 = k
    · exact ⟨(k, v), List.mem_map.mpr ⟨p, hp, by rw [if_pos hpkk]⟩,
        by rw [← hpkk, hpk]⟩
    · exact ⟨p, List.mem_map.mpr ⟨p, hp, by rw [if_neg hpkk]⟩, hpk⟩
  · exact ⟨p, List.mem_append.mpr (Or.inl hp), hpk⟩

theorem buildEntries_aux_forall {rank : ℕ → ℕ} (P : Finset ℕ × ℕ → Prop) :
    ∀ (cs : List (Finset ℕ)) (acc : List (Finset ℕ × ℕ)),
      (∀ p ∈ acc, P p) →
      (∀ c ∈ cs,
        P ((sortByRank rank c).tail.toFinset, (sortByRank rank c).headI)) →
      ∀ p ∈ cs.foldl (fun t c =>
          dictInsert t (sortByRank rank c).tail.toFinset
            (sortByRank rank c).headI) acc, P p := by
  intro cs
  induction cs with
  | nil => intro acc hacc _ p hp; exact hacc p hp
  | cons c cs ih =>
      intro acc hacc hcs p hp
      refine ih _ ?_ (fun c' hc' => hcs c' (List.mem_cons_of_mem _ hc')) p hp
      intro q hq
      rcases mem_dictInsert hq with rfl | hq'
      · exact hcs c (List.mem_cons_self _ _)
      · exact hacc q hq'

theorem buildEntries_forall {rank : ℕ → ℕ} {cs : List (Finset ℕ)}
    (P : Finset ℕ × ℕ → Prop)
    (hP : ∀ c ∈ cs,
      P ((sortByRank rank c).tail.toFinset, (sortByRank rank c).headI)) :
    ∀ p ∈ buildEntries rank cs, P p :=
  buildEntries_aux_forall P cs [] (by intro p hp; cases hp) hP

theorem buildEntries_key_aux {rank : ℕ → ℕ} (kC : Finset ℕ) :
    ∀ (cs : List (Finset ℕ)) (acc : List (Finset ℕ × ℕ)),
      ((∃ c ∈ cs, (sortByRank rank c).tail.toFinset = kC) ∨
        ∃ p ∈ acc, p.1 = kC) →
      ∃ p ∈ cs.foldl (fun t c =>
          dictInsert t (sortByRank rank c).tail.toFinset
            (sortByRank rank c).headI) acc, p.1 = kC := by
  intro cs
  induction cs with
  | nil =>
      intro acc h
      rcases h with ⟨c, hc, _⟩ | h
      · cases hc
      · exact h
  | cons c cs ih =>
      intro acc h
      refine ih _ ?_
      rcases h with ⟨c', hc', hk⟩ | h
      · rcases List.mem_cons.mp hc' with rfl | hc''
        · exact Or.inr (hk ▸ dictInsert_key_self acc _ _)
        · exact Or.inl ⟨c', hc'', hk⟩
      · exact Or.inr (dictInsert_key_mono h _ _)

theorem buildEntries_key_present (rank : ℕ → ℕ) {cs : List (Finset ℕ)}
    (C : Finset ℕ) (hC : C ∈ cs) :
    ∃ p ∈ buildEntries rank cs, p.1 = (sortByRank rank C).tail.toFinset :=
  buildEntries_key_aux _ cs [] (Or.inl ⟨C, hC, rfl⟩)

theorem sortByRank_head_lt_tail {rank : ℕ → ℕ}
    (hinj : Function.Injective rank) (c : Finset ℕ) :
    ∀ x ∈ (sortByRank rank c).tail.toFinset,
      rank (sortByRank rank c).headI < rank x := by
  have hp := pairwise_lt_sortByRank hinj c
  cases hl : sortByRank rank c with
  | nil => intro x hx; simp at hx
  | cons a t =>
      intro x hx
      rw [hl] at hp
      rw [List.tail_cons, List.mem_toFinset] at hx
      exact List.rel_of_pairwise_cons hp hx

theorem insert_head_tail (rank : ℕ → ℕ) {c : Finset ℕ} (hne : c.Nonempty) :
    insert (sortByRank rank c).headI (sortByRank rank c).tail.toFinset = c := by
  have hco : ((sortByRank rank c : List ℕ) : Multiset ℕ) = c.val :=
    sortByRank_coe rank c
  have hmem : ∀ x, x ∈ sortByRank rank c ↔ x ∈ c := fun x => mem_sortByRank
  cases hl : sortByRank rank c with
  | nil =>
      exfalso
      rw [hl] at hco
      have : c.card = 0 := by
        rw [Finset.card_def, ← hco]
        rfl
      rw [Finset.card_eq_zero] at this
      exact Finset.not_nonempty_empty (this ▸ hne)
  | cons a t =>
      ext x
      have hx := hmem x
      rw [hl] at hx
      rw [List.headI_cons, List.tail_cons, Finset.mem_insert,
        List.mem_toFinset, ← hx, List.mem_cons]

theorem buildTable_valid {rank : ℕ → ℕ} (hinj : Function.Injective rank)
    (cs : List (Finset ℕ)) : ValidTable (buildTable rank cs) := fun p hp =>
  buildEntries_forall (fun p => ∀ x ∈ p.1, rank p.2 < rank x)
    (fun c _ => sortByRank_head_lt_tail hinj c) p hp

theorem buildEntries_insert_mem {rank : ℕ → ℕ} {cs : List (Finset ℕ)}
    (hne : ∀ c ∈ cs, c.Nonempty) :
    ∀ p ∈ buildEntries rank cs, insert p.2 p.1 ∈ cs :=
  buildEntries_forall (fun p => insert p.2 p.1 ∈ cs) fun c hc => by
    show insert (sortByRank rank c).headI (sortByRank rank c).tail.toFinset ∈ cs
    rw [insert_head_tail rank (hne c hc)]
    exact hc

/-- Core of C4: any subset of the ground set containing a circuit is reduced
to zero, by strong induction on the measure, using the circuit elimination
axiom of matroids for the hypothesis `helim`. -/
theorem circuit_subset_zero {rank : ℕ → ℕ} {cs : List (Finset ℕ)}
    (hinj : Function.Injective rank) (hne : ∀ c ∈ cs, c.Nonempty)
    (helim : ∀ c1 ∈ cs, ∀ c2 ∈ cs, c1 ≠ c2 → ∀ j ∈ c1, j ∈ c2 →
      ∃ c3 ∈ cs, c3 ⊆ (c1 ∪ c2).erase j) :
    ∀ (n : ℕ) (S : Finset ℕ), osMeasure rank S ≤ n → (∃ C ∈ cs, C ⊆ S) →
      subset_image (buildTable rank cs) S = 0 := by
  have hT : ValidTable (buildTable rank cs) := buildTable_valid hinj cs
  intro n
  induction n using Nat.strong_induction_on with
  | _ n IH =>
    intro S hn hex
    obtain ⟨C, hCcs, hCS⟩ := hex
    obtain ⟨pk, hpk, hpk1⟩ := buildEntries_key_present rank C hCcs
    have hpkS : pk.1 ⊆ S := by
      rw [hpk1]
      intro x hx
      rw [List.mem_toFinset] at hx
      exact hCS (mem_sortByRank.mp (List.mem_of_mem_tail hx))
    cases hscan : scanBC (buildTable rank cs) S with
    | none => exact absurd hpkS (scanBC_eq_none_iff.mp hscan pk hpk)
    | some p =>
        by_cases hp2 : p.2 ∈ S
        · exact subset_image_of_mem hscan hp2
        · rw [subset_image_rewrite hT hscan hp2]
          refine bcLoop_eq_zero _ _ fun j hjl hjbc => ?_
          have hjS : j ∈ S := mem_sortByRank.mp hjl
          have hrk : rank p.2 < rank j := hT p (scanBC_mem hscan) j hjbc
          have hlt := osMeasure_symmDiff_lt hp2 hjS hrk
          have hC1 : insert p.2 p.1 ∈ cs :=
            buildEntries_insert_mem hne p (scanBC_mem hscan)
          have hSd : symmDiff S {p.2, j} = insert p.2 (S.erase j) :=
            symmDiff_pair hp2 hjS
          have hobtain : ∃ C' ∈ cs, C' ⊆ symmDiff S {p.2, j} := by
            rw [hSd]
            by_cases hjC : j ∈ C
            · have hne2 : C ≠ insert p.2 p.1 := fun he =>
                hp2 (hCS (he ▸ Finset.mem_insert_self p.2 p.1))
              obtain ⟨c3, hc3, hc3sub⟩ := helim C hCcs _ hC1 hne2 j hjC
                (Finset.mem_insert_of_mem hjbc)
              refine ⟨c3, hc3, hc3sub.trans ?_⟩
              intro x hx
              rw [Finset.mem_erase] at hx
              obtain ⟨hxj, hxU⟩ := hx
              rcases Finset.mem_union.mp hxU with hxC | hxC1
              · exact Finset.mem_insert_of_mem
                  (Finset.mem_erase.mpr ⟨hxj, hCS hxC⟩)
              · rcases Finset.mem_insert.mp hxC1 with rfl | hxp1
                · exact Finset.mem_insert_self _ _
                · exact Finset.mem_insert_of_mem
                    (Finset.mem_erase.mpr ⟨hxj, scanBC_subset hscan hxp1⟩)
            · refine ⟨C, hCcs, fun x hx => ?_⟩
              have hxj : x ≠ j := fun he => hjC (he ▸ hx)
              exact Finset.mem_insert_of_mem
                (Finset.mem_erase.mpr ⟨hxj, hCS hx⟩)
          exact IH (osMeasure rank (symmDiff S {p.2, j})) (by omega) _ le_rfl
            hobtain

/-- C4: for a table built from the circuits of a matroid (nonempty circuits,
injective rank, circuit elimination), (i) whenever `S` contains a recorded
broken circuit together with its recorded removed element, `subset_image S`
is the zero element, and (ii) `subset_image C = 0` for every circuit `C`. -/
theorem c4_circuit_zero {rank : ℕ → ℕ} {cs : List (Finset ℕ)}
    (hinj : Function.Injective rank) (hne : ∀ c ∈ cs, c.Nonempty)
    (helim : ∀ c1 ∈ cs, ∀ c2 ∈ cs, c1 ≠ c2 → ∀ j ∈ c1, j ∈ c2 →
      ∃ c3 ∈ cs, c3 ⊆ (c1 ∪ c2).erase j)
    (S : Finset ℕ) :
    (∀ p ∈ (buildTable rank cs).entries, p.1 ⊆ S → p.2 ∈ S →
      subset_image (buildTable rank cs) S = 0) ∧
    ∀ C ∈ cs, subset_image (buildTable rank cs) C = 0 := by
  constructor
  · intro p hp hsub hmem
    refine circuit_subset_zero hinj hne helim (osMeasure rank S) S le_rfl
      ⟨insert p.2 p.1, buildEntries_insert_mem hne p hp, ?_⟩
    intro x hx
    rcases Finset.mem_insert.mp hx with rfl | hx1
    · exact hmem
    · exact hsub hx1
  · intro C hC
    exact circuit_subset_zero hinj hne helim (osMeasure rank C) C le_rfl
      ⟨C, hC, Finset.Subset.refl C⟩

theorem c4_circuit_zero_witness :
    subset_image (buildTable (fun x => x) [{0, 1}]) {0, 1} = 0 :=
  (c4_circuit_zero (fun _ _ h => h) (by decide) (by decide) {0, 1}).2 {0, 1}
    (by decide)

/-! ### Claims C6 and C7: branches of `product_on_basis` -/

theorem pobF_two (T : BCTable) (Gs : Finset ℕ) (a b : Finset ℕ) :
    pobF T Gs 2 a b =
      if a = ∅ then monomial b
      else if b = ∅ then monomial a
      else if ¬Disjoint a b then 0
      else if a.card = 1 then
        ((-1 : ℤ) ^
            ((sortByRank T.rank (insert (sortByRank T.rank a).headI b)).indexOf
              (sortByRank T.rank a).headI)) •
          subset_image T (insert (sortByRank T.rank a).headI b)
      else
        (sortByRank T.rank a).foldl
          (fun r i => mulOS Gs (pobF T Gs 1) (subset_image T {i}) r)
          ((if a.card % 4 < 2 then (1 : ℤ) else -1) • monomial b) :=
  rfl

/-- C6: two nonempty basis indices with a common element multiply to the zero
element; in particular `product_on_basis a a = 0` for nonempty `a`. -/
theorem c6_intersect_zero {T : BCTable} {Gs : Finset ℕ} {a b : Finset ℕ}
    (ha : a ≠ ∅) (hb : b ≠ ∅) (hd : ¬Disjoint a b) :
    product_on_basis T Gs a b = 0 ∧ product_on_basis T Gs a a = 0 := by
  have key : ∀ c : Finset ℕ, c ≠ ∅ → ¬Disjoint a c →
      product_on_basis T Gs a c = 0 := by
    intro c hc hdc
    unfold product_on_basis
    rw [pobF_two, if_neg ha, if_neg hc, if_pos hdc]
  refine ⟨key b hb hd, key a ha fun h => ha ?_⟩
  have := disjoint_self.mp h
  simpa using this

theorem c6_intersect_zero_witness :
    product_on_basis (buildTable (fun x => x) [{0, 1, 2}]) {0, 1, 2}
        {0, 1} {1} = 0 ∧
      product_on_basis (buildTable (fun x => x) [{0, 1, 2}]) {0, 1, 2}
        {0, 1} {0, 1} = 0 :=
  c6_intersect_zero (by decide) (by decide) (by decide)

/-- C7: multiplying the singleton basis index `{x}` onto a nonempty disjoint
basis index `b` inserts the generator: the result is `(-1) ^ p` times
`subset_image (b ∪ {x})`, where `p` is the zero-based position of `x` in the
ascending-rank sorting of `b ∪ {x}`. -/
theorem c7_single_insertion {T : BCTable} {Gs : Finset ℕ} {x : ℕ}
    {b : Finset ℕ} (hb : b ≠ ∅) (hd : Disjoint {x} b) :
    product_on_basis T Gs {x} b =
      ((-1 : ℤ) ^ ((sortByRank T.rank (insert x b)).indexOf x)) •
        subset_image T (insert x b) := by
  unfold product_on_basis
  rw [pobF_two, if_neg (Finset.singleton_ne_empty x), if_neg hb,
    if_neg (not_not_intro hd), if_pos (Finset.card_singleton x),
    sortByRank_singleton]
  rfl

theorem c7_single_insertion_witness :
    product_on_basis (buildTable (fun x => x) [{0, 1, 2}]) {0, 1, 2}
        {0} {1} =
      ((-1 : ℤ) ^
          ((sortByRank (buildTable (fun x => x) [{0, 1, 2}]).rank
              (insert 0 {1})).indexOf 0)) •
        subset_image (buildTable (fun x => x) [{0, 1, 2}]) (insert 0 {1}) :=
  c7_single_insertion (by decide) (by decide)

/-! ### Claim C8: constructor behaviour for an explicit ordering -/

theorem sortingMap_eq_of_not_mem :
    ∀ (l : List (ℕ × ℕ)) (m : ℕ → Option ℕ) (x : ℕ), (∀ p ∈ l, x ≠ p.2) →
      (l.foldl (fun m p => fun y => if y = p.2 then some p.1 else m y) m) x =
        m x := by
  intro l
  induction l with
  | nil => intro m x _; rfl
  | cons p t ih =>
      intro m x h
      rw [List.foldl_cons,
        ih _ x fun q hq => h q (List.mem_cons_of_mem _ hq)]
      simp only [if_neg (h p (List.mem_cons_self _ _))]

theorem sortingMap_isSome_of :
    ∀ (l : List (ℕ × ℕ)) (m : ℕ → Option ℕ) (x : ℕ),
      ((∃ p ∈ l, x = p.2) ∨ (m x).isSome = true) →
      ((l.foldl (fun m p => fun y => if y = p.2 then some p.1 else m y) m)
          x).isSome = true := by
  intro l
  induction l with
  | nil =>
      intro m x h
      rcases h with ⟨p, hp, _⟩ | h
      · cases hp
      · exact h
  | cons p t ih =>
      intro m x h
      rw [List.foldl_cons]
      refine ih _ x ?_
      rcases h with ⟨q, hq, he⟩ | h
      · rcases List.mem_cons.mp hq with rfl | hq'
        · exact Or.inr (by simp [he])
        · exact Or.inl ⟨q, hq', he⟩
      · refine Or.inr ?_
        by_cases hxp : x = p.2
        · simp [hxp]
        · simpa [if_neg hxp] using h

theorem sortingMap_isSome_iff (ordering : List ℕ) (x : ℕ) :
    (sortingMap ordering x).isSome = true ↔ x ∈ ordering := by
  constructor
  · intro h
    by_contra hx
    have hnone := sortingMap_eq_of_not_mem ordering.enum (fun _ => none) x
      fun p hp he => hx (by
        have : p.2 ∈ ordering.enum.map Prod.snd := List.mem_map_of_mem _ hp
        rw [List.enum_map_snd] at this
        exact he ▸ this)
    unfold sortingMap at h
    rw [hnone] at h
    cases h
  · intro h
    have : x ∈ ordering.enum.map Prod.snd := by rw [List.enum_map_snd]; exact h
    obtain ⟨p, hp, he⟩ := List.mem_map.mp this
    exact sortingMap_isSome_of ordering.enum _ x (Or.inl ⟨p, hp, he.symm⟩)

/-- C8 (amended): construction performs no ordering validation at all — it
succeeds exactly when every element of every circuit occurs in the ordering
(duplicates are accepted silently, each element getting its last index), and
an omitted element that occurs in a circuit surfaces as a `KeyError` from the
sorting-dictionary lookup, not as an `InvalidOrderingError`. -/
theorem c8_no_validation (ordering : List ℕ) (cs : List (Finset ℕ)) :
    ((∃ e, osInit ordering cs = Except.ok e) ↔
      ∀ c ∈ cs, ∀ x ∈ c, x ∈ ordering) ∧
    ((osInit ordering cs = Except.error ("KeyError")) ↔
      ∃ c ∈ cs, ∃ x ∈ c, x ∉ ordering) := by
  unfold osInit
  split
  · next h =>
      constructor
      · constructor
        · intro _ c hc x hx
          exact (sortingMap_isSome_iff ordering x).mp (h c hc x hx)
        · intro _
          exact ⟨_, rfl⟩
      · constructor
        · intro he
          cases he
        · rintro ⟨c, hc, x, hx, hmem⟩
          exact absurd ((sortingMap_isSome_iff ordering x).mp (h c hc x hx))
            hmem
  · next h =>
      constructor
      · constructor
        · rintro ⟨e, he⟩
          cases he
        · intro hall
          exact absurd
            (fun c hc x hx =>
              (sortingMap_isSome_iff ordering x).mpr (hall c hc x hx)) h
      · constructor
        · intro _
          by_contra hnot
          push_neg at hnot
          exact h fun c hc x hx =>
            (sortingMap_isSome_iff ordering x).mpr (hnot c hc x hx)
        · intro _
          rfl

/-- C8 is false as stated: the duplicated ordering `[0, 0, 1]` is accepted
without any error — construction does not fail with `InvalidOrderingError`
(no such validation exists in the constructor). -/
theorem c8_counterexample :
    ¬([0, 0, 1] : List ℕ).Nodup ∧
      ∃ e, osInit [0, 0, 1] [{0, 1}] = Except.ok e := by
  exact ⟨by decide, ⟨_, rfl⟩⟩

/-! ### Claim C9: textual rendering of a basis index -/

/-- C9 (amended): `_repr_term` renders `OS{` followed by the elements in the
frozenset's iteration order, comma-separated, followed by `}`; the sorted
rendering claimed by the spec is produced exactly on enumerations that are
already sorted ascending. -/
theorem c9_repr_iteration_order (m : Finset ℕ) (enum : List ℕ)
    (h1 : enum.toFinset = m) (h2 : enum.Nodup) :
    (repr_term enum =
      "OS\x7b" ++ String.intercalate (", ") (enum.map toString) ++ "\x7d") ∧
    (enum = sortByRank (fun x => x) m → repr_term enum = reprTermSpec m) := by
  have hdata : (pyStrList enum).data =
      '[' :: (String.intercalate (", ") (enum.map toString)).data ++ [']'] := by
    unfold pyStrList
    rw [String.data_append, String.data_append]
    rfl
  have hstrip : pyStrip (pyStrList enum) =
      String.intercalate (", ") (enum.map toString) := by
    unfold pyStrip
    rw [hdata]
    show String.mk
      ((String.intercalate (", ") (enum.map toString)).data ++ [']']).dropLast =
        String.intercalate (", ") (enum.map toString)
    rw [List.dropLast_concat]
  constructor
  · unfold repr_term
    rw [hstrip]
  · intro he
    unfold repr_term reprTermSpec
    rw [hstrip, he]

theorem c9_repr_iteration_order_witness :
    (repr_term [0, 2] =
      "OS\x7b" ++
        String.intercalate (", ") (([0, 2] : List ℕ).map toString) ++
        "\x7d") ∧
    ([0, 2] = sortByRank (fun x => x) ({0, 2} : Finset ℕ) →
      repr_term [0, 2] = reprTermSpec {0, 2}) :=
  c9_repr_iteration_order {0, 2} [0, 2] (by decide) (by decide)

/-- C9 is false as stated: `[2, 0]` is a duplicate-free enumeration of the
frozenset `{0, 2}` (Python's `list(m)` order is the unspecified hash-table
iteration order), and it renders as `OS{2, 0}`, which differs from the
claimed ascending rendering `OS{0, 2}`. -/
theorem c9_counterexample :
    ([2, 0] : List ℕ).toFinset = ({0, 2} : Finset ℕ) ∧
      ([2, 0] : List ℕ).Nodup ∧
      repr_term [2, 0] ≠ reprTermSpec {0, 2} :=
  ⟨by decide, by decide, by decide⟩

/-! ### Faithfulness of `product_on_basis`'s fixed fuel

The source's `len(a) > 1` branch multiplies generator by generator through the
free module's product, with `product_on_basis` itself as the basis-level
product.  The fuelled embedding runs that inner occurrence with fuel 1; the
following lemmas show the fuel is irrelevant there, because a generator
`subset_image {i}` is supported on singleton indices (degree preservation) and
the singleton branches consume no fuel, so `product_on_basis` satisfies the
source's self-referential equation (`product_on_basis_eq`). -/

theorem pobF_succ (T : BCTable) (Gs : Finset ℕ) (fuel : ℕ) (a b : Finset ℕ) :
    pobF T Gs (fuel + 1) a b =
      if a = ∅ then monomial b
      else if b = ∅ then monomial a
      else if ¬Disjoint a b then 0
      else if a.card = 1 then
        ((-1 : ℤ) ^
            ((sortByRank T.rank (insert (sortByRank T.rank a).headI b)).indexOf
              (sortByRank T.rank a).headI)) •
          subset_image T (insert (sortByRank T.rank a).headI b)
      else
        (sortByRank T.rank a).foldl
          (fun r i => mulOS Gs (pobF T Gs fuel) (subset_image T {i}) r)
          ((if a.card % 4 < 2 then (1 : ℤ) else -1) • monomial b) :=
  rfl

theorem pobF_fuel_of_card_le_one (T : BCTable) (Gs : Finset ℕ)
    {a : Finset ℕ} (h : a.card ≤ 1) (b : Finset ℕ) (n m : ℕ) :
    pobF T Gs (n + 1) a b = pobF T Gs (m + 1) a b := by
  rw [pobF_succ, pobF_succ]
  by_cases h1 : a = ∅
  · rw [if_pos h1, if_pos h1]
  · have hcard : a.card = 1 := by
      have : 0 < a.card := Finset.card_pos.mpr (Finset.nonempty_of_ne_empty h1)
      omega
    rw [if_neg h1, if_neg h1]
    by_cases h2 : b = ∅
    · rw [if_pos h2, if_pos h2]
    · rw [if_neg h2, if_neg h2]
      by_cases h3 : ¬Disjoint a b
      · rw [if_pos h3, if_pos h3]
      · rw [if_neg h3, if_neg h3, if_pos hcard, if_pos hcard]

theorem mulOS_gen_fuel {T : BCTable} (hT : ValidTable T) (Gs : Finset ℕ)
    (x : ℕ) (r : OSElt) (n m : ℕ) :
    mulOS Gs (pobF T Gs (n + 1)) (subset_image T {x}) r =
      mulOS Gs (pobF T Gs (m + 1)) (subset_image T {x}) r := by
  unfold mulOS
  refine Finset.sum_congr rfl fun a' _ => Finset.sum_congr rfl fun b' _ => ?_
  by_cases hz : subset_image T {x} a' = 0
  · rw [hz, zero_mul, zero_smul, zero_smul]
  · have hcard : a'.card = 1 := by
      have := subset_image_card hT hz
      simpa using this
    rw [pobF_fuel_of_card_le_one T Gs (le_of_eq hcard) b' n m]

/-- The embedding satisfies the source's recursive equation for
`product_on_basis`: in the `len(a) > 1` branch the accumulator is left
multiplied by each generator `G[i] = subset_image {i}` (in ascending rank
order) through the free module's bilinear product with `product_on_basis`
itself at the basis level. -/
theorem product_on_basis_eq {T : BCTable} (hT : ValidTable T) (Gs : Finset ℕ)
    (a b : Finset ℕ) :
    product_on_basis T Gs a b =
      if a = ∅ then monomial b
      else if b = ∅ then monomial a
      else if ¬Disjoint a b then 0
      else if a.card = 1 then
        ((-1 : ℤ) ^
            ((sortByRank T.rank (insert (sortByRank T.rank a).headI b)).indexOf
              (sortByRank T.rank a).headI)) •
          subset_image T (insert (sortByRank T.rank a).headI b)
      else
        (sortByRank T.rank a).foldl
          (fun r i => mulOS Gs (product_on_basis T Gs) (subset_image T {i}) r)
          ((if a.card % 4 < 2 then (1 : ℤ) else -1) • monomial b) := by
  unfold product_on_basis
  rw [pobF_two]
  have hstep : (fun (r : OSElt) (i : ℕ) =>
      mulOS Gs (pobF T Gs 1) (subset_image T {i}) r) =
      fun (r : OSElt) (i : ℕ) =>
        mulOS Gs (pobF T Gs 2) (subset_image T {i}) r :=
    funext fun r => funext fun i => mulOS_gen_fuel hT Gs i r 0 1
  rw [hstep]

